import Mathlib

/-!
Shallow embedding of the `wasm-rs/shared-channel` SPSC channel
(`src/spsc.rs`, `src/lib.rs`, `example/src/lib.rs`) and proofs about it.

Modelling conventions:
* Header slots (`A_START`, `A_END`, `B_END`, `B_USE`) are `u32` values stored
  through `Atomics`; we model them as `Nat` together with explicit wrapping
  arithmetic `wadd`/`wsub` modulo `2 ^ 32` wherever the Rust source performs
  `u32` addition or subtraction.
* The shared `Uint8Array` arena is a `List Nat` of its bytes.  JavaScript
  typed-array semantics are kept: an out-of-bounds `set_index` is a no-op
  (`List.set` is a no-op out of bounds) and an out-of-bounds `get_index`
  yields `0` (`List.getD`).
* The execution is sequential: the two endpoints run in some interleaving but
  each call runs to completion before the next one starts.  Consequently an
  `Atomics.wait_with_timeout` performed inside `recv` can only time out (no
  concurrent sender exists that could notify), so both timeout branches of
  `recv` return `Ok(None)` when no data is available.
* The `Shareable` codec of `src/lib.rs` (the serde/bincode implementation) is
  parametrised by the opaque payload encoder `enc` (for `bincode::serialize`)
  and partial decoder `dec` (for `bincode::deserialize`); the length-prefix
  framing around them is translated from the source.
* `recv` contains an unbounded `loop`; we model it with explicit fuel, the
  result `RecvResult.spin` marking fuel exhaustion (a run of the loop that has
  not returned yet).
-/

namespace SharedChannel

/-- Modulus of `u32` arithmetic. -/
def M : Nat := 2 ^ 32

/-- Wrapping `u32` addition (`a + b` on `u32` values, as in the Rust source). -/
def wadd (a b : Nat) : Nat := (a + b) % M

/-- Wrapping `u32` subtraction (`a - b` on `u32` values). -/
def wsub (a b : Nat) : Nat := (M + a - b) % M

/-- State of one `SharedChannel<T>`: the arena bytes (`data`, a
`Uint8Array` over a `SharedArrayBuffer` of `len` bytes) and the four header
slots `A_START`, `A_END`, `B_END`, `B_USE`. -/
structure Chan where
  len : Nat
  data : List Nat
  aStart : Nat
  aEnd : Nat
  bEnd : Nat
  bUse : Bool
deriving DecidableEq, Repr

/-- Channel as built by `channel::<T>(len)`: a zeroed arena and an all-zero
header. -/
def initChan (len : Nat) : Chan :=
  { len := len, data := List.replicate len 0, aStart := 0, aEnd := 0, bEnd := 0, bUse := false }

/-- `SharedChannel::unused`: free space seen by the writer. -/
def unused (c : Chan) : Nat :=
  if c.bUse then wsub c.aStart c.bEnd else wsub c.len c.aEnd

/-- `SharedChannel::maybe_switch`: set `B_USE` to 1 when the tail space
`len - A_END` is smaller than the head space `A_START - B_END`. -/
def maybeSwitch (c : Chan) : Chan :=
  if wsub c.len c.aEnd < wsub c.aStart c.bEnd then { c with bUse := true } else c

/-- The byte-copy loop of `Sender::send`:
`for i in 0..len { data.set_index(end + i, bytes.get_index(i)) }` where the
index is a `u32`.  Out-of-bounds stores are no-ops (JS typed array). -/
def writeFrom (data : List Nat) (off : Nat) : List Nat → List Nat
  | [] => data
  | b :: bs => writeFrom (data.set (off % M) b) (off + 1) bs

/-- The byte-copy loop of `Receiver::recv`:
`for i in 0..sz { array.set_index(i, data.get_index(a_start + i)) }`.
Out-of-bounds loads yield 0 (JS typed array `undefined` coerced to `u8`). -/
def readBytes (data : List Nat) (off n : Nat) : List Nat :=
  (List.range n).map fun i => data.getD ((off + i) % M) 0

/-- Little-endian bytes of the low 32 bits of `n`
(`u32::to_ne_bytes`; WebAssembly is little-endian). -/
def u32le (n : Nat) : List Nat :=
  [n % 256, n / 2 ^ 8 % 256, n / 2 ^ 16 % 256, n / 2 ^ 24 % 256]

/-- `u32::from_ne_bytes` on the first four bytes of a buffer. -/
def fromLe (bs : List Nat) : Nat :=
  bs.getD 0 0 + 2 ^ 8 * bs.getD 1 0 + 2 ^ 16 * bs.getD 2 0 + 2 ^ 24 * bs.getD 3 0

/-- Result of one `Shareable::from` probe: `Ok(Ok(v))`, `Ok(Err(Expects n))`,
or `Err(e)` in the Rust source. -/
inductive DecodeStep (T : Type) where
  | decoded : T → DecodeStep T
  | expects : Nat → DecodeStep T
  | fail : String → DecodeStep T
deriving DecidableEq, Repr

/-- `Shareable::to_bytes` of the serde implementation in `src/lib.rs`: the
4-byte native-endian length prefix followed by the `bincode` payload `enc v`.
(On wasm32 a `Vec<u8>`/`Uint8Array` is always shorter than `2 ^ 32`, so
`byte_length` is the exact length.) -/
def toBytes {T : Type} (enc : T → List Nat) (v : T) : List Nat :=
  u32le (enc v).length ++ enc v

/-- `Shareable::from` of the serde implementation in `src/lib.rs`. -/
def shareableFrom {T : Type} (dec : List Nat → Option T) (bytes : List Nat) : DecodeStep T :=
  if bytes.length = 0 then .expects 4
  else if 4 ≤ bytes.length then
    let size := fromLe (bytes.take 4)
    if bytes.length = 4 then .expects (wadd 4 size)
    else
      match dec (bytes.drop 4) with
      | some v => .decoded v
      | none => .fail "deserialization error"
  else .fail "unexpected data"

/-- `Sender::send`.  `Except.error` is the thrown JavaScript exception; the
Rust function returns it before performing any store, so the state is
unchanged in that case.  (`to_bytes` serialization failures are not modelled:
`enc` is total.) -/
def send {T : Type} (enc : T → List Nat) (c : Chan) (v : T) : Except String Chan :=
  let bytes := toBytes enc v
  let n := bytes.length
  if unused c < n then .error "not enough space"
  else
    let e := if c.bUse then c.bEnd else c.aEnd
    let data' := writeFrom c.data e bytes
    let c' :=
      if c.bUse then { c with data := data', bEnd := wadd e n }
      else { c with data := data', aEnd := wadd e n }
    .ok (maybeSwitch c')

/-- Result of `Receiver::recv`: `ok c r` is `Ok(r)` with the channel left in
state `c`; `err c msg` is a thrown deserialization error with the channel left
in state `c`; `spin` means the loop did not return within the given fuel. -/
inductive RecvResult (T : Type) where
  | ok : Chan → Option T → RecvResult T
  | err : Chan → String → RecvResult T
  | spin : RecvResult T
deriving DecidableEq, Repr

/-- Cursor update of `Receiver::recv` (spsc.rs lines 234-251): given the already
advanced read cursor `aStart` (i.e. `a_start + sz`), perform the drain-swap
(`B` promoted to `A`) or the empty-ring reset when region A is fully drained.
Returns the `(A_START, A_END, B_END, B_USE)` tuple that the receiver commits
to the header. -/
def advance (aStart aEnd bEnd : Nat) (bUse : Bool) : Nat × Nat × Nat × Bool :=
  if aStart = aEnd then
    if bUse then (0, bEnd, 0, false) else (0, 0, bEnd, false)
  else (aStart, aEnd, bEnd, bUse)

/-- Channel state committed by `Receiver::recv` after copying `sz` bytes out
of the arena: the four header stores of the commit, before `maybe_switch`
re-evaluates the region-switch policy. -/
def commitChan (c : Chan) (sz : Nat) : Chan :=
  let a := advance (wadd c.aStart sz) c.aEnd c.bEnd c.bUse
  { c with aStart := a.1, aEnd := a.2.1, bEnd := a.2.2.1, bUse := a.2.2.2 }

/-- The `loop` of `Receiver::recv`, with explicit fuel.  `array` is the probe
buffer carried between iterations (initially empty). -/
def recvLoop {T : Type} (dec : List Nat → Option T) (timeout : Option Nat) :
    Nat → Chan → List Nat → RecvResult T
  | 0, _, _ => .spin
  | fuel + 1, c, array =>
    match shareableFrom dec array with
    | .decoded v => .ok c (some v)
    | .fail msg => .err c msg
    | .expects sz =>
      if c.aStart = c.aEnd ∨ c.len < wadd c.aStart sz then
        -- With `timeout = None` the source returns `Ok(None)` directly.
        -- With `Some(d)` it parks on `Atomics::wait_with_timeout`; in the
        -- sequential embedding no concurrent sender exists to notify, so
        -- the wait can only report "timed-out", which also yields `Ok(None)`.
        .ok c none
      else
        let probe := readBytes c.data c.aStart sz
        match shareableFrom dec probe with
        | .decoded _ => recvLoop dec timeout fuel (maybeSwitch (commitChan c sz)) probe
        | .expects _ => recvLoop dec timeout fuel c probe
        | .fail msg => .err c msg

/-- `Receiver::recv`, started with an empty probe buffer. -/
def recv {T : Type} (dec : List Nat → Option T) (timeout : Option Nat) (fuel : Nat)
    (c : Chan) : RecvResult T :=
  recvLoop dec timeout fuel c []

/-! ### Concrete codecs and states used to instantiate theorems -/

/-- Single-byte payload codec (bincode encoding of a `u8`). -/
def encByte (v : Nat) : List Nat := [v % 256]

/-- Decoder matching `encByte`. -/
def decByte (l : List Nat) : Option Nat :=
  match l with
  | [b] => some b
  | _ => none

/-- A decoder that always fails. -/
def decNone (_ : List Nat) : Option Nat := none

/-- Payload encoder of a zero-size serde type such as `()`:
`bincode::serialized_size` is 0 and the payload is empty. -/
def encUnit (_ : Unit) : List Nat := []

/-- Decoder for the zero-size type. -/
def decUnit (_ : List Nat) : Option Unit := some ()

/-- Channel wrapper of `example/src/lib.rs`: `sender` holds the
`Option<spsc::Sender<Request>>` that `Channel::sender` consumes (the
`Receiver` half is irrelevant to the take-sender protocol). -/
structure ExChannel (S : Type) where
  sender : Option S

/-- `Channel::new` / `Channel::from`: the wrapper starts with the sender
present. -/
def mkExChannel {S : Type} (s : S) : ExChannel S := ⟨some s⟩

/-- `Channel::sender`: `self.sender.take()` hands out the sender the first
time and fails with "sender is already taken" afterwards. -/
def takeSender {S : Type} (ch : ExChannel S) : Except String S × ExChannel S :=
  match ch.sender with
  | some s => (.ok s, { ch with sender := none })
  | none => (.error "sender is already taken", ch)

/-- Iterated post-states of repeated `Channel::sender` calls. -/
def takeStates {S : Type} (ch : ExChannel S) : Nat → ExChannel S
  | 0 => ch
  | k + 1 => (takeSender (takeStates ch k)).2

/-- A decoder that recognises the single byte `[0]`. -/
def decZero (l : List Nat) : Option Nat := if l = [0] then some 42 else none

/-- A channel state whose region A holds only 2 unconsumed bytes. -/
def cexChan : Chan := ⟨16, [1, 0, 0, 0] ++ List.replicate 12 0, 0, 2, 0, false⟩

/-- Concatenated frames of a list of pending values. -/
def framesOf {T : Type} (enc : T → List Nat) (vs : List T) : List Nat :=
  (vs.map (toBytes enc)).flatten

/-- Invariant tying a channel state to the queue of pending (sent but not yet
received) values. -/
structure Inv {T : Type} (enc : T → List Nat) (c : Chan) (pending : List T) : Prop where
  hdata : c.data.length = c.len
  hlen : c.len < M
  hba : c.bEnd ≤ c.aStart
  haa : c.aStart ≤ c.aEnd
  hal : c.aEnd ≤ c.len
  hb0 : c.bUse = false → c.bEnd = 0
  hempty : c.aStart = c.aEnd → c.aStart = 0 ∧ c.bEnd = 0 ∧ c.bUse = false
  hsplit : ∃ p q, pending = p ++ q ∧
    (c.data.drop c.aStart).take (c.aEnd - c.aStart) = framesOf enc p ∧
    c.data.take c.bEnd = framesOf enc q

/-- A value the serde codec round-trips with a nonempty encoded payload
(`bincode::deserialize` inverts `bincode::serialize`; cf. the C5 analysis for
why zero-size payloads are excluded). -/
def Good {T : Type} (enc : T → List Nat) (dec : List Nat → Option T) (v : T) : Prop :=
  dec (enc v) = some v ∧ 0 < (enc v).length

/-- One sequential operation on the channel. -/
inductive Op (T : Type) where
  | send : T → Op T
  | recv : Op T

/-- Values carried by the send operations of a trace, in order. -/
def sentVals {T : Type} : List (Op T) → List T
  | [] => []
  | Op.send v :: ops => v :: sentVals ops
  | Op.recv :: ops => sentVals ops

/-- Sequential execution of a trace of operations.  A send that throws
"not enough space" aborts the run (`none`), as do a receiver decode error and
fuel exhaustion; the second component collects the received values in
order. -/
def exec {T : Type} (enc : T → List Nat) (dec : List Nat → Option T) :
    Chan → List (Op T) → Option (Chan × List T)
  | c, [] => some (c, [])
  | c, Op.send v :: ops =>
    match send enc c v with
    | .ok c' => exec enc dec c' ops
    | .error _ => none
  | c, Op.recv :: ops =>
    match recv dec none 3 c with
    | .ok c' r => (exec enc dec c' ops).map fun pr => (pr.1, r.toList ++ pr.2)
    | .err _ _ => none
    | .spin => none

/-- Every send of the trace succeeds because its frame fits the free space at
its moment (the claim's premise); receives are unconstrained. -/
inductive AllFit {T : Type} (enc : T → List Nat) (dec : List Nat → Option T) :
    Chan → List (Op T) → Prop where
  | nil : ∀ c, AllFit enc dec c []
  | fsend : ∀ c v ops c', send enc c v = .ok c' → AllFit enc dec c' ops →
      AllFit enc dec c (Op.send v :: ops)
  | frecv : ∀ c ops, (∀ c' r, recv dec none 3 c = .ok c' r → AllFit enc dec c' ops) →
      AllFit enc dec c (Op.recv :: ops)

/-- Channel states reachable from a fresh channel by committed sends (of any
values) and committed receives. -/
inductive Reachable {T : Type} (enc : T → List Nat) (dec : List Nat → Option T)
    (len : Nat) : Chan → Prop where
  | init : Reachable enc dec len (initChan len)
  | step_send : ∀ {c v c'}, Reachable enc dec len c →
      send enc c v = .ok c' → Reachable enc dec len c'
  | step_recv : ∀ {c c' r}, Reachable enc dec len c →
      recv dec none 3 c = .ok c' r → Reachable enc dec len c'

/-! ### Arithmetic and list lemmas -/

theorem M_pos : 0 < M := by decide

theorem wadd_eq {a b : Nat} (h : a + b < M) : wadd a b = a + b := by
  simp [wadd, Nat.mod_eq_of_lt h]

theorem wsub_eq {a b : Nat} (hba : b ≤ a) (ha : a < M) : wsub a b = a - b := by
  have h1 : M + a - b = M + (a - b) := by omega
  have h2 : a - b < M := by omega
  simp [wsub, h1, Nat.add_mod_left, Nat.mod_eq_of_lt h2]

/-! ### Arena copy loops -/

theorem writeFrom_length (bytes : List Nat) : ∀ (data : List Nat) (off : Nat),
    (writeFrom data off bytes).length = data.length := by
  induction bytes with
  | nil => intro data off; rfl
  | cons b bs ih =>
    intro data off
    rw [writeFrom, ih]
    exact List.length_set ..

/-- The sender's byte-copy loop is a splice: writing `bytes` at offset `off`
(with everything in bounds) replaces the slice `[off, off + |bytes|)`. -/
theorem writeFrom_eq (bytes : List Nat) : ∀ (data : List Nat) (off : Nat),
    off + bytes.length ≤ data.length → data.length < M →
    writeFrom data off bytes = data.take off ++ bytes ++ data.drop (off + bytes.length) := by
  induction bytes with
  | nil =>
    intro data off h _
    simp [writeFrom]
  | cons b bs ih =>
    intro data off h hM
    have hoff : off < data.length := by simp at h; omega
    have hm : off % M = off := Nat.mod_eq_of_lt (lt_trans hoff hM)
    have hsplit : data.set off b = (data.take off ++ [b]) ++ data.drop (off + 1) := by
      rw [List.set_eq_take_cons_drop b hoff]; simp
    rw [writeFrom, hm, ih _ (off + 1) (by simp at h ⊢; omega) (by rwa [List.length_set]),
      hsplit]
    have hl1 : (data.take off ++ [b]).length = off + 1 := by
      simp [List.length_take, Nat.min_eq_left hoff.le]
    have e1 : ((data.take off ++ [b]) ++ data.drop (off + 1)).take (off + 1)
        = data.take off ++ [b] := by
      rw [List.take_append_eq_append_take, hl1, List.take_of_length_le (le_of_eq hl1)]
      simp
    have e2 : ((data.take off ++ [b]) ++ data.drop (off + 1)).drop (off + 1 + bs.length)
        = data.drop (off + 1 + bs.length) := by
      rw [List.drop_append_eq_append_drop, hl1,
        List.drop_eq_nil_of_le (by omega : (data.take off ++ [b]).length ≤ off + 1 + bs.length)]
      have : off + 1 + bs.length - (off + 1) = bs.length := by omega
      rw [this]
      simp [List.drop_drop]
    rw [e1, e2]
    have : off + (b :: bs).length = off + 1 + bs.length := by simp; omega
    rw [this]
    simp

theorem readBytes_length (data : List Nat) (off n : Nat) :
    (readBytes data off n).length = n := by
  simp [readBytes]

/-- The receiver's byte-copy loop extracts the slice `[off, off + n)` when it
is in bounds. -/
theorem readBytes_eq {data : List Nat} {off n : Nat}
    (h : off + n ≤ data.length) (hM : data.length < M) :
    readBytes data off n = (data.drop off).take n := by
  apply List.ext_getElem
  · simp [readBytes]; omega
  · intro i h1 h2
    have hi : i < n := by simpa [readBytes] using h1
    have hoi : off + i < data.length := by omega
    simp [readBytes, List.getElem_take, List.getElem_drop,
      Nat.mod_eq_of_lt (lt_trans hoi hM), List.getD_eq_getElem?_getD,
      List.getElem?_eq_getElem hoi]

/-! ### Length-prefix framing -/

theorem u32le_length (n : Nat) : (u32le n).length = 4 := rfl

theorem fromLe_u32le {n : Nat} (h : n < M) : fromLe (u32le n) = n := by
  simp [fromLe, u32le, List.getD]
  have : M = 2 ^ 32 := rfl
  omega

theorem toBytes_length {T : Type} (enc : T → List Nat) (v : T) :
    (toBytes enc v).length = 4 + (enc v).length := by
  simp [toBytes, u32le]
  omega

/-! ### Case analysis of `Shareable::from` -/

theorem shareableFrom_nil {T : Type} (dec : List Nat → Option T) :
    shareableFrom dec [] = .expects 4 := rfl

theorem shareableFrom_short {T : Type} (dec : List Nat → Option T) {bytes : List Nat}
    (h0 : bytes.length ≠ 0) (h4 : bytes.length < 4) :
    shareableFrom dec bytes = .fail "unexpected data" := by
  simp [shareableFrom, h0, Nat.not_le.mpr h4]

theorem shareableFrom_four {T : Type} (dec : List Nat → Option T) {bytes : List Nat}
    (h : bytes.length = 4) :
    shareableFrom dec bytes = .expects (wadd 4 (fromLe (bytes.take 4))) := by
  simp [shareableFrom, h]

theorem shareableFrom_long {T : Type} (dec : List Nat → Option T) {bytes : List Nat}
    (h : 4 < bytes.length) :
    shareableFrom dec bytes =
      match dec (bytes.drop 4) with
      | some v => .decoded v
      | none => .fail "deserialization error" := by
  have h0 : bytes.length ≠ 0 := by omega
  have h4 : 4 ≤ bytes.length := by omega
  have hne : bytes.length ≠ 4 := by omega
  simp [shareableFrom, h0, h4, hne]

/-- Probing the full frame of `v` runs the payload decoder on exactly the
payload bytes, provided the payload is nonempty. -/
theorem shareableFrom_frame {T : Type} (enc : T → List Nat) (dec : List Nat → Option T)
    (v : T) (h0 : 0 < (enc v).length) :
    shareableFrom dec (toBytes enc v) =
      match dec (enc v) with
      | some w => .decoded w
      | none => .fail "deserialization error" := by
  have hlen : 4 < (toBytes enc v).length := by rw [toBytes_length]; omega
  rw [shareableFrom_long dec hlen]
  have hdrop : (toBytes enc v).drop 4 = enc v := by
    have : (u32le (enc v).length).length = 4 := u32le_length _
    simp [toBytes, List.drop_append_eq_append_drop, this]
  rw [hdrop]

/-- Probing the 4-byte length prefix of a frame reports the full frame
length. -/
theorem shareableFrom_prefix {T : Type} (dec : List Nat → Option T) {n : Nat}
    (hn : 4 + n < M) :
    shareableFrom dec (u32le n) = .expects (4 + n) := by
  rw [shareableFrom_four dec (u32le_length n)]
  have ht : (u32le n).take 4 = u32le n := List.take_of_length_le (le_of_eq (u32le_length n))
  rw [ht, fromLe_u32le (by omega), wadd_eq hn]

/-! ### Claim theorems about the framing codec -/

/-- C10: a probe buffer of length 1, 2 or 3 makes the serde `Shareable::from`
return the outer "unexpected data" error, never a `NeedBytes` request or a
decoded value; an `Expects` or `Decoded` outcome forces length 0 or ≥ 4. -/
theorem short_probe_unexpected {T : Type} (dec : List Nat → Option T) (bytes : List Nat) :
    (bytes.length = 1 ∨ bytes.length = 2 ∨ bytes.length = 3 →
      shareableFrom dec bytes = .fail "unexpected data") ∧
    (∀ n, shareableFrom dec bytes = .expects n → bytes.length = 0 ∨ 4 ≤ bytes.length) ∧
    (∀ v, shareableFrom dec bytes = .decoded v → bytes.length = 0 ∨ 4 ≤ bytes.length) := by
  refine ⟨fun h => shareableFrom_short dec (by omega) (by omega), ?_, ?_⟩
  · intro n hn
    by_cases h0 : bytes.length = 0
    · exact Or.inl h0
    by_cases h4 : 4 ≤ bytes.length
    · exact Or.inr h4
    · rw [shareableFrom_short dec h0 (by omega)] at hn
      exact DecodeStep.noConfusion hn
  · intro v hv
    by_cases h0 : bytes.length = 0
    · exact Or.inl h0
    by_cases h4 : 4 ≤ bytes.length
    · exact Or.inr h4
    · rw [shareableFrom_short dec h0 (by omega)] at hv
      exact DecodeStep.noConfusion hv

/-- Witness for C10 at the concrete one-byte probe `[7]`. -/
theorem short_probe_unexpected_witness :
    shareableFrom decNone [7] = .fail "unexpected data" :=
  (short_probe_unexpected decNone [7]).1 (Or.inl rfl)

/-- C5 counterexample: for a zero-size serde payload (e.g. `()`), the full
frame is exactly the 4-byte prefix `[0,0,0,0]`, and decoding it reports
`NeedBytes 4` again — a third `NeedBytes` round instead of the claimed
`Decoded`-or-error, so the discovery protocol never completes. -/
theorem serde_two_rounds_counterexample :
    (encUnit ()).length = 0 ∧
    toBytes encUnit () = [0, 0, 0, 0] ∧
    shareableFrom decUnit (toBytes encUnit ()) = .expects 4 :=
  ⟨rfl, rfl, rfl⟩

/-- C5 (amended): for every value whose encoded payload is nonempty, the
serde codec completes discovery in two `NeedBytes` rounds: the empty probe
reports `NeedBytes 4`, the 4-byte prefix reports
`NeedBytes (4 + payload_length)`, and the full frame decodes to the value
(or surfaces a deserialization error). -/
theorem serde_two_rounds {T : Type} (enc : T → List Nat) (dec : List Nat → Option T)
    (v : T) (h0 : 0 < (enc v).length) (hM : 4 + (enc v).length < M) :
    shareableFrom (T := T) dec [] = .expects 4 ∧
    shareableFrom (T := T) dec (u32le (enc v).length) = .expects (4 + (enc v).length) ∧
    (dec (enc v) = some v → shareableFrom dec (toBytes enc v) = .decoded v) ∧
    (dec (enc v) = none → shareableFrom dec (toBytes enc v) = .fail "deserialization error") := by
  refine ⟨shareableFrom_nil dec, shareableFrom_prefix dec hM, ?_, ?_⟩
  · intro h
    rw [shareableFrom_frame enc dec v h0, h]
  · intro h
    rw [shareableFrom_frame enc dec v h0, h]

/-- Witness for C5 (amended) at the one-byte value `3`. -/
theorem serde_two_rounds_witness :
    shareableFrom (T := Nat) decByte [] = .expects 4 ∧
    shareableFrom (T := Nat) decByte (u32le (encByte 3).length) = .expects (4 + (encByte 3).length) ∧
    (decByte (encByte 3) = some 3 →
      shareableFrom decByte (toBytes encByte 3) = .decoded 3) ∧
    (decByte (encByte 3) = none →
      shareableFrom decByte (toBytes encByte 3) = .fail "deserialization error") :=
  serde_two_rounds encByte decByte 3 (by decide) (by decide)

/-- C3: `Sender::send` throws "not enough space" exactly when the encoded
frame (4-byte prefix plus payload) is strictly longer than the free space
computed by `unused`, and a frame exactly filling the free space is accepted.
The Rust function returns the error before its first store, which the
embedding reflects: the error branch produces no new state, so arena and
header are unchanged. -/
theorem send_insufficient_space {T : Type} (enc : T → List Nat) (c : Chan) (v : T) :
    (send enc c v = .error "not enough space" ↔ unused c < (toBytes enc v).length) ∧
    ((toBytes enc v).length ≤ unused c → ∃ c', send enc c v = .ok c') := by
  constructor
  · constructor
    · intro he
      by_contra hlt
      rw [Nat.not_lt] at hlt
      simp [send, Nat.not_lt.mpr hlt] at he
    · intro hlt
      simp [send, hlt]
  · intro hle
    cases hs : send enc c v with
    | error e =>
      exfalso
      simp [send, Nat.not_lt.mpr hle] at hs
    | ok c' => exact ⟨c', rfl⟩

/-- Witness for C3: a channel of 5 free bytes accepts a 5-byte frame
(exact fit). -/
theorem send_insufficient_space_witness :
    ∃ c', send encByte (initChan 5) 3 = .ok c' :=
  (send_insufficient_space encByte (initChan 5) 3).2 (by decide)

/-- C6: the cursor tuple committed by `Receiver::recv` after copying `n`
bytes: the provisional read cursor is `A_START + n`; if it reaches `A_END`
with `B_USE = 1` the drain-swap commits
`A_START = 0, A_END = old B_END, B_END = 0, B_USE = 0`; if it reaches `A_END`
with `B_USE = 0` the empty reset commits `A_START = A_END = 0`; otherwise
only `A_START` changes, becoming `A_START + n`. -/
theorem recv_commit_cases (c : Chan) (n : Nat) (h : c.aStart + n < M) :
    (wadd c.aStart n = c.aEnd → c.bUse = true →
      commitChan c n = { c with aStart := 0, aEnd := c.bEnd, bEnd := 0, bUse := false }) ∧
    (wadd c.aStart n = c.aEnd → c.bUse = false →
      commitChan c n = { c with aStart := 0, aEnd := 0 }) ∧
    (wadd c.aStart n ≠ c.aEnd →
      commitChan c n = { c with aStart := c.aStart + n }) := by
  unfold commitChan advance
  rw [wadd_eq h]
  exact ⟨fun he hb => by simp [he, hb], fun he hb => by simp [he, hb],
    fun hne => by simp [hne]⟩

/-- Witness for C6: drain-swap at a concrete channel state. -/
theorem recv_commit_cases_witness :
    commitChan ⟨16, List.replicate 16 0, 2, 5, 1, true⟩ 3
      = ⟨16, List.replicate 16 0, 0, 1, 0, false⟩ :=
  (recv_commit_cases ⟨16, List.replicate 16 0, 2, 5, 1, true⟩ 3 (by decide)).1 (by decide) rfl

/-- C7: the region-switch policy `maybe_switch` sets `B_USE := 1` exactly
when `len − A_END < A_START − B_END` (u32 arithmetic on the header values
read at that point), changes nothing otherwise, and never clears `B_USE`;
every successful `send` commits its final state through `maybe_switch`. -/
theorem region_switch_policy {T : Type} (enc : T → List Nat) (c : Chan) (v : T) :
    ((wsub c.len c.aEnd < wsub c.aStart c.bEnd → maybeSwitch c = { c with bUse := true }) ∧
      (¬ wsub c.len c.aEnd < wsub c.aStart c.bEnd → maybeSwitch c = c) ∧
      (c.bUse = true → (maybeSwitch c).bUse = true)) ∧
    (∀ c', send enc c v = .ok c' → ∃ cm, c' = maybeSwitch cm) := by
  constructor
  · refine ⟨fun h => by simp [maybeSwitch, h], fun h => by simp [maybeSwitch, h], fun hb => ?_⟩
    unfold maybeSwitch
    split
    · rfl
    · exact hb
  · intro c' h
    unfold send at h
    by_cases hsp : unused c < (toBytes enc v).length
    · simp [hsp] at h
    · simp [hsp] at h
      exact ⟨_, h.symm⟩

/-- Witness for C7: at a concrete state with a nearly full tail, the policy
switches `B_USE` on. -/
theorem region_switch_policy_witness :
    maybeSwitch ⟨16, List.replicate 16 0, 10, 15, 0, false⟩
      = ⟨16, List.replicate 16 0, 10, 15, 0, true⟩ :=
  (region_switch_policy encByte ⟨16, List.replicate 16 0, 10, 15, 0, false⟩ 0).1.1 (by decide)

/-! ### Sender-handle uniqueness -/

/-- C9: on a freshly constructed channel object the take-sender operation
succeeds exactly once: the first call returns the sender, and every later
call (after any number of further attempts) fails with
"sender is already taken". -/
theorem sender_taken_once {S : Type} (s : S) :
    (takeSender (mkExChannel s)).1 = .ok s ∧
    ∀ k, (takeSender (takeStates (takeSender (mkExChannel s)).2 k)).1
      = .error "sender is already taken" := by
  constructor
  · rfl
  · intro k
    have hnone : ∀ (ch : ExChannel S), ch.sender = none → ∀ k,
        (takeStates ch k).sender = none := by
      intro ch hch k
      induction k with
      | zero => exact hch
      | succ k ih =>
        show (takeSender (takeStates ch k)).2.sender = none
        simp [takeSender, ih]
    have hk : (takeStates (takeSender (mkExChannel s)).2 k).sender = none :=
      hnone _ rfl k
    revert hk
    generalize takeStates (takeSender (mkExChannel s)).2 k = ch2
    intro hk
    simp [takeSender, hk]

/-! ### The receiver's data-availability guard -/

/-- C4 counterexample: in this state `A_END − A_START = 2 < 4 = n`, so the
claim requires `recv(None)` to return `Ok(None)` immediately; instead the
code's guard (`len < a_start + sz`, not `a_end − a_start < sz`) passes, recv
copies bytes beyond `A_END`, decodes them and returns a value, committing
`A_START = 5 > A_END`. -/
theorem recv_poll_counterexample :
    cexChan.aEnd - cexChan.aStart < 4 ∧
    recv decZero none 3 cexChan
      = .ok ⟨16, [1, 0, 0, 0] ++ List.replicate 12 0, 5, 2, 0, false⟩ (some 42) := by
  constructor
  · decide
  · decide

/-- C4 (amended): in `Receiver::recv` with `timeout = None`, a codec round
requesting `n` bytes returns `Ok(None)` immediately — with no header
mutation — precisely when `A_START == A_END` (ring empty) or the `n`-byte
read starting at `A_START` would run past the arena end
(`len < A_START + n`); otherwise the round copies exactly `n` bytes out of
the arena starting at `A_START` into the probe buffer and continues with
that probe. -/
theorem recv_poll_guard {T : Type} (dec : List Nat → Option T) (c : Chan)
    (array : List Nat) (n fuel : Nat) (h : shareableFrom dec array = .expects n) :
    (c.aStart = c.aEnd ∨ c.len < wadd c.aStart n →
      recvLoop dec none (fuel + 1) c array = .ok c none) ∧
    (¬(c.aStart = c.aEnd ∨ c.len < wadd c.aStart n) →
      (∀ w, shareableFrom dec (readBytes c.data c.aStart n) = .decoded w →
        recvLoop dec none (fuel + 1) c array
          = recvLoop dec none fuel (maybeSwitch (commitChan c n))
              (readBytes c.data c.aStart n)) ∧
      (∀ m, shareableFrom dec (readBytes c.data c.aStart n) = .expects m →
        recvLoop dec none (fuel + 1) c array
          = recvLoop dec none fuel c (readBytes c.data c.aStart n)) ∧
      (∀ msg, shareableFrom dec (readBytes c.data c.aStart n) = .fail msg →
        recvLoop dec none (fuel + 1) c array = .err c msg)) := by
  constructor
  · intro hg
    rw [recvLoop, h]
    simp [hg]
  · intro hg
    refine ⟨fun w hw => ?_, fun m hm => ?_, fun msg hmsg => ?_⟩
    · rw [recvLoop, h]
      simp [hg, hw]
    · rw [recvLoop, h]
      simp [hg, hm]
    · rw [recvLoop, h]
      simp [hg, hmsg]

/-- Witness for C4 (amended): polling an empty just-created channel returns
`Ok(None)` at the first round. -/
theorem recv_poll_guard_witness :
    recvLoop decByte none 3 (initChan 16) [] = .ok (initChan 16) none :=
  (recv_poll_guard decByte (initChan 16) [] 4 2 (shareableFrom_nil decByte)).1
    (Or.inl rfl)

/-- C8: if `Receiver::recv` surfaces a deserialization failure, the channel
state at the moment of the error is exactly the entry state — no header slot
was stored — and the error message is the codec's failure on some probe
buffer. -/
theorem recv_fail_no_mutation {T : Type} (dec : List Nat → Option T)
    (timeout : Option Nat) :
    ∀ (fuel : Nat) (c c' : Chan) (array : List Nat) (msg : String),
    recvLoop dec timeout fuel c array = .err c' msg →
    c' = c ∧ ∃ b, shareableFrom dec b = .fail msg := by
  intro fuel
  induction fuel with
  | zero =>
    intro c c' array msg h
    exact absurd h (by simp [recvLoop])
  | succ fuel ih =>
    intro c c' array msg h
    rw [recvLoop] at h
    cases harr : shareableFrom dec array with
    | decoded v => simp only [harr] at h; simp at h
    | fail m =>
      simp only [harr] at h
      obtain ⟨h1, h2⟩ : c = c' ∧ m = msg := by
        constructor <;> [injection h; injection h]
      exact ⟨h1.symm, array, h2 ▸ harr⟩
    | expects sz =>
      simp only [harr] at h
      by_cases hg : c.aStart = c.aEnd ∨ c.len < wadd c.aStart sz
      · rw [if_pos hg] at h
        simp at h
      · rw [if_neg hg] at h
        cases hp : shareableFrom dec (readBytes c.data c.aStart sz) with
        | decoded w =>
          simp only [hp] at h
          cases fuel with
          | zero => simp [recvLoop] at h
          | succ g =>
            rw [recvLoop] at h
            simp only [hp] at h
            simp at h
        | expects m =>
          simp only [hp] at h
          exact ih _ _ _ _ h
        | fail m =>
          simp only [hp] at h
          obtain ⟨h1, h2⟩ : c = c' ∧ m = msg := by
            constructor <;> [injection h; injection h]
          exact ⟨h1.symm, readBytes c.data c.aStart sz, h2 ▸ hp⟩

/-! ### Ring invariant

The protocol invariant of a reachable channel state: region A
(`[A_START, A_END)`) holds the frames of a first batch of pending values and
region B (`[0, B_END)`) the frames of the rest, the cursors are ordered
`B_END ≤ A_START ≤ A_END ≤ len`, and a fully drained ring has been reset to
the all-zero cursor state. -/

theorem framesOf_nil {T : Type} (enc : T → List Nat) : framesOf enc [] = [] := rfl

theorem framesOf_cons {T : Type} (enc : T → List Nat) (v : T) (vs : List T) :
    framesOf enc (v :: vs) = toBytes enc v ++ framesOf enc vs := by
  simp [framesOf]

theorem framesOf_append {T : Type} (enc : T → List Nat) (p q : List T) :
    framesOf enc (p ++ q) = framesOf enc p ++ framesOf enc q := by
  simp [framesOf]

theorem framesOf_eq_nil {T : Type} {enc : T → List Nat} {vs : List T}
    (h : framesOf enc vs = []) : vs = [] := by
  cases vs with
  | nil => rfl
  | cons v vs =>
    rw [framesOf_cons] at h
    have : (toBytes enc v).length = 0 := by
      have := congrArg List.length h
      simp at this
      simp [this.1]
    rw [toBytes_length] at this
    omega

theorem initChan_inv {T : Type} (enc : T → List Nat) {len : Nat} (h : len < M) :
    Inv enc (initChan len) [] := by
  refine ⟨by simp [initChan], h, Nat.le_refl 0, Nat.le_refl 0, Nat.zero_le len,
    fun _ => rfl, fun _ => ⟨rfl, rfl, rfl⟩, [], [], rfl, by simp [initChan, framesOf],
    by simp [initChan, framesOf]⟩

theorem wsub_lt (a b : Nat) : wsub a b < M := Nat.mod_lt _ M_pos

theorem unused_lt (c : Chan) : unused c < M := by
  unfold unused
  split <;> exact wsub_lt ..

/-- Slicing the result of a middle splice: after writing `bytes` at `aEnd`,
the slice from `aStart` to the new end is the old slice plus `bytes`. -/
theorem splice_middle (data bytes : List Nat) (aStart aEnd : Nat)
    (h1 : aStart ≤ aEnd) (h2 : aEnd ≤ data.length) :
    ((data.take aEnd ++ bytes ++ data.drop (aEnd + bytes.length)).drop aStart).take
        (aEnd + bytes.length - aStart)
      = (data.drop aStart).take (aEnd - aStart) ++ bytes := by
  have hlt : (data.take aEnd).length = aEnd := by
    simp [List.length_take]
    omega
  rw [List.append_assoc, List.drop_append_eq_append_drop, hlt,
    Nat.sub_eq_zero_of_le h1, List.drop_zero, List.take_append_eq_append_take]
  have hdl : ((data.take aEnd).drop aStart).length = aEnd - aStart := by
    simp [hlt]
  rw [List.take_of_length_le (by rw [hdl]; omega), hdl]
  have hn : aEnd + bytes.length - aStart - (aEnd - aStart) = bytes.length := by omega
  rw [hn, List.take_append_eq_append_take, List.take_of_length_le (Nat.le_refl _),
    Nat.sub_self, List.take_zero, List.append_nil, List.drop_take]

/-- A splice strictly below `k` does not disturb the suffix from `k` on. -/
theorem splice_keep_drop (data bytes : List Nat) (off k : Nat)
    (h : off + bytes.length ≤ k) (h2 : off ≤ data.length) :
    (data.take off ++ bytes ++ data.drop (off + bytes.length)).drop k = data.drop k := by
  have hlt : (data.take off).length = off := by
    simp [List.length_take]
    omega
  rw [List.append_assoc, List.drop_append_eq_append_drop, hlt,
    List.drop_eq_nil_of_le (by rw [hlt]; omega), List.nil_append,
    List.drop_append_eq_append_drop,
    List.drop_eq_nil_of_le (by omega : bytes.length ≤ k - off), List.nil_append,
    List.drop_drop]
  have : off + bytes.length + (k - off - bytes.length) = k := by omega
  rw [this]

theorem maybeSwitch_inv {T : Type} {enc : T → List Nat} {c : Chan} {pending : List T}
    (h : Inv enc c pending) : Inv enc (maybeSwitch c) pending := by
  unfold maybeSwitch
  split
  case isTrue hc =>
    refine ⟨h.hdata, h.hlen, h.hba, h.haa, h.hal, fun hf => by simp at hf, ?_, h.hsplit⟩
    intro he
    obtain ⟨h1, h2, _⟩ := h.hempty he
    exfalso
    have hz : wsub c.aStart c.bEnd = 0 := by simp [wsub, h1, h2]
    rw [hz] at hc
    omega
  case isFalse => exact h

/-- Building the invariant from plain facts about the record fields. -/
theorem Inv.of_fields {T : Type} (enc : T → List Nat) (len : Nat) (data : List Nat)
    (aStart aEnd bEnd : Nat) (bUse : Bool) (pending : List T)
    (hdata : data.length = len) (hlen : len < M) (hba : bEnd ≤ aStart)
    (haa : aStart ≤ aEnd) (hal : aEnd ≤ len)
    (hb0 : bUse = false → bEnd = 0)
    (hempty : aStart = aEnd → aStart = 0 ∧ bEnd = 0 ∧ bUse = false)
    (hsplit : ∃ p q, pending = p ++ q ∧
      (data.drop aStart).take (aEnd - aStart) = framesOf enc p ∧
      data.take bEnd = framesOf enc q) :
    Inv enc ⟨len, data, aStart, aEnd, bEnd, bUse⟩ pending :=
  ⟨hdata, hlen, hba, haa, hal, hb0, hempty, hsplit⟩

theorem regionA_length {T : Type} {enc : T → List Nat} {c : Chan} {pending : List T}
    (hInv : Inv enc c pending) :
    ((c.data.drop c.aStart).take (c.aEnd - c.aStart)).length = c.aEnd - c.aStart := by
  rw [List.length_take, List.length_drop, hInv.hdata]
  exact Nat.min_eq_left (by have := hInv.hal; have := hInv.haa; omega)

/-- A channel with no pending values has a drained region A. -/
theorem inv_nil_empty {T : Type} {enc : T → List Nat} {c : Chan}
    (hInv : Inv enc c []) : c.aStart = c.aEnd := by
  obtain ⟨p, q, hpq, hA, _⟩ := hInv.hsplit
  obtain ⟨hp, _⟩ := List.append_eq_nil.mp hpq.symm
  have hl := regionA_length hInv
  rw [hA, hp, framesOf_nil] at hl
  have := hInv.haa
  simp at hl
  omega

/-- `Sender::send` preserves the ring invariant, appending the sent value to
the pending queue. -/
theorem send_inv {T : Type} {enc : T → List Nat} {c : Chan} {pending : List T}
    {v : T} {c' : Chan} (hInv : Inv enc c pending) (hsend : send enc c v = .ok c') :
    Inv enc c' (pending ++ [v]) := by
  by_cases hsp : unused c < (toBytes enc v).length
  · simp [send, hsp] at hsend
  · have hfree : (toBytes enc v).length ≤ unused c := Nat.le_of_not_lt hsp
    have hk : (toBytes enc v).length = 4 + (enc v).length := toBytes_length enc v
    obtain ⟨p, q, hpq, hA, hB⟩ := hInv.hsplit
    have hdM := hInv.hlen
    have haa := hInv.haa
    have hal := hInv.hal
    have hba := hInv.hba
    simp only [send] at hsend
    rw [if_neg hsp] at hsend
    cases hbu : c.bUse with
    | false =>
      have hb0 : c.bEnd = 0 := hInv.hb0 hbu
      have hq : q = [] := framesOf_eq_nil (by rw [← hB, hb0]; rfl)
      have hu : unused c = c.len - c.aEnd := by
        simp [unused, hbu, wsub_eq hInv.hal hInv.hlen]
      have hfit : c.aEnd + (toBytes enc v).length ≤ c.len := by omega
      have hwa : wadd c.aEnd (toBytes enc v).length = c.aEnd + (toBytes enc v).length :=
        wadd_eq (by omega)
      have hw : writeFrom c.data c.aEnd (toBytes enc v)
          = c.data.take c.aEnd ++ toBytes enc v ++ c.data.drop (c.aEnd + (toBytes enc v).length) :=
        writeFrom_eq _ _ _ (by rw [hInv.hdata]; exact hfit)
          (by rw [hInv.hdata]; exact hInv.hlen)
      simp only [hbu, Bool.false_eq_true, if_false] at hsend
      rw [Except.ok.injEq] at hsend
      subst hsend
      apply maybeSwitch_inv
      rw [hwa, hw]
      refine Inv.of_fields enc _ _ _ _ _ _ _ ?_ hInv.hlen hba (by omega) hfit
        (fun _ => hb0) (fun he => absurd he (by omega)) ?_
      · rw [List.length_append, List.length_append, List.length_take, List.length_drop,
          hInv.hdata, Nat.min_eq_left hal]
        omega
      · refine ⟨p ++ [v], [], by rw [hpq, hq]; simp, ?_, by simp [hb0, framesOf]⟩
        rw [splice_middle c.data (toBytes enc v) c.aStart c.aEnd haa
          (by rw [hInv.hdata]; exact hal), hA]
        simp [framesOf]
    | true =>
      have hane : c.aStart ≠ c.aEnd := by
        intro he
        obtain ⟨_, _, hbf⟩ := hInv.hempty he
        rw [hbu] at hbf
        cases hbf
      have hu : unused c = c.aStart - c.bEnd := by
        simp [unused, hbu, wsub_eq hInv.hba (by omega : c.aStart < M)]
      have hfit : c.bEnd + (toBytes enc v).length ≤ c.aStart := by omega
      have hwa : wadd c.bEnd (toBytes enc v).length = c.bEnd + (toBytes enc v).length :=
        wadd_eq (by omega)
      have hw : writeFrom c.data c.bEnd (toBytes enc v)
          = c.data.take c.bEnd ++ toBytes enc v ++ c.data.drop (c.bEnd + (toBytes enc v).length) :=
        writeFrom_eq _ _ _ (by rw [hInv.hdata]; omega)
          (by rw [hInv.hdata]; exact hInv.hlen)
      simp only [hbu, if_true] at hsend
      rw [Except.ok.injEq] at hsend
      subst hsend
      apply maybeSwitch_inv
      rw [hwa, hw]
      refine Inv.of_fields enc _ _ _ _ _ _ _ ?_ hInv.hlen hfit haa hal
        (fun hf => absurd hf (by simp [hbu])) (fun he => absurd he hane) ?_
      · rw [List.length_append, List.length_append, List.length_take, List.length_drop,
          hInv.hdata, Nat.min_eq_left (by omega : c.bEnd ≤ c.len)]
        omega
      · refine ⟨p, q ++ [v], by rw [hpq]; simp, ?_, ?_⟩
        · rw [splice_keep_drop c.data (toBytes enc v) c.bEnd c.aStart hfit
            (by rw [hInv.hdata]; omega)]
          exact hA
        · have hsp0 := splice_middle c.data (toBytes enc v) 0 c.bEnd (Nat.zero_le _)
            (by rw [hInv.hdata]; omega)
          simp only [List.drop_zero, Nat.sub_zero] at hsp0
          rw [hsp0, hB]
          simp [framesOf]

/-- Unfolding of one `recv` loop iteration. -/
theorem recvLoop_succ {T : Type} (dec : List Nat → Option T) (timeout : Option Nat)
    (fuel : Nat) (c : Chan) (array : List Nat) :
    recvLoop dec timeout (fuel + 1) c array =
      match shareableFrom dec array with
      | .decoded v => .ok c (some v)
      | .fail msg => .err c msg
      | .expects sz =>
        if c.aStart = c.aEnd ∨ c.len < wadd c.aStart sz then .ok c none
        else
          match shareableFrom dec (readBytes c.data c.aStart sz) with
          | .decoded _ => recvLoop dec timeout fuel (maybeSwitch (commitChan c sz))
              (readBytes c.data c.aStart sz)
          | .expects _ => recvLoop dec timeout fuel c (readBytes c.data c.aStart sz)
          | .fail msg => .err c msg := rfl

/-- Polling an empty channel returns `Ok(None)` and leaves the state alone. -/
theorem recv_empty {T : Type} {enc : T → List Nat} (dec : List Nat → Option T) {c : Chan}
    (hInv : Inv enc c []) : recv dec none 3 c = .ok c none := by
  have he : c.aStart = c.aEnd := inv_nil_empty hInv
  show recvLoop dec none (2 + 1) c [] = _
  rw [recvLoop_succ]
  simp only [shareableFrom_nil]
  rw [if_pos (Or.inl he)]

/-- In an invariant state with head value `v`, the head frame spans
`[A_START, A_START + 4 + |enc v|) ⊆ [A_START, A_END)`, and the receiver's
probe reads return its length prefix and the whole frame. -/
theorem head_frame_facts {T : Type} {enc : T → List Nat} {c : Chan} {v : T}
    {rest : List T} (hInv : Inv enc c (v :: rest)) :
    c.aStart + (4 + (enc v).length) ≤ c.aEnd ∧ 4 + (enc v).length < M ∧
    readBytes c.data c.aStart 4 = u32le (enc v).length ∧
    readBytes c.data c.aStart (4 + (enc v).length) = toBytes enc v := by
  obtain ⟨p, q, hpq, hA, hB⟩ := hInv.hsplit
  have hdM := hInv.hlen
  have haa := hInv.haa
  have hal := hInv.hal
  have hdata := hInv.hdata
  cases p with
  | nil =>
    exfalso
    have hl := regionA_length hInv
    rw [hA, framesOf_nil] at hl
    simp at hl
    have he : c.aStart = c.aEnd := by omega
    obtain ⟨_, hb0, _⟩ := hInv.hempty he
    have hq : q = [] := framesOf_eq_nil (by rw [← hB, hb0]; rfl)
    rw [hq] at hpq
    simp at hpq
  | cons v0 p' =>
    rw [List.cons_append, List.cons.injEq] at hpq
    obtain ⟨hv0, _⟩ := hpq
    subst hv0
    rw [framesOf_cons] at hA
    have hl := regionA_length hInv
    have hlen2 := congrArg List.length hA
    rw [hl, List.length_append, toBytes_length] at hlen2
    have hspan : c.aStart + (4 + (enc v).length) ≤ c.aEnd := by omega
    have hkM : 4 + (enc v).length < M := by omega
    refine ⟨hspan, hkM, ?_, ?_⟩
    · rw [readBytes_eq (by omega) (by omega)]
      have h44 : (c.data.drop c.aStart).take 4
          = ((c.data.drop c.aStart).take (c.aEnd - c.aStart)).take 4 := by
        rw [List.take_take, Nat.min_eq_left (by omega)]
      rw [h44, hA, toBytes, List.append_assoc, List.take_append_eq_append_take,
        List.take_of_length_le (le_of_eq (u32le_length _)), u32le_length,
        Nat.sub_self, List.take_zero, List.append_nil]
    · rw [readBytes_eq (by omega) (by omega)]
      have h44 : (c.data.drop c.aStart).take (4 + (enc v).length)
          = ((c.data.drop c.aStart).take (c.aEnd - c.aStart)).take (4 + (enc v).length) := by
        rw [List.take_take, Nat.min_eq_left (by omega)]
      rw [h44, hA, List.take_append_eq_append_take,
        List.take_of_length_le (le_of_eq (toBytes_length enc v)), toBytes_length,
        Nat.sub_self, List.take_zero, List.append_nil]

/-- A head frame with a zero-size payload makes the `recv` loop request the
same 4 bytes forever: the call never returns within any fuel (the Rust code
loops). -/
theorem recv_spin_zero {T : Type} {enc : T → List Nat} {dec : List Nat → Option T}
    {c : Chan} {v : T} {rest : List T}
    (hInv : Inv enc c (v :: rest)) (hz : (enc v).length = 0) :
    recv dec none 3 c = .spin := by
  obtain ⟨hspan, hkM, hp1, _⟩ := head_frame_facts hInv
  have haa := hInv.haa
  have hal := hInv.hal
  have hdM := hInv.hlen
  have hane : ¬ c.aStart = c.aEnd := by omega
  have hs1 : shareableFrom dec (readBytes c.data c.aStart 4) = .expects 4 := by
    rw [hp1, hz]
    simpa using shareableFrom_prefix (T := T) dec (n := 0) (by omega)
  have hg1 : ¬(c.aStart = c.aEnd ∨ c.len < wadd c.aStart 4) := by
    rw [wadd_eq (by omega)]
    push_neg
    exact ⟨hane, by omega⟩
  show recvLoop dec none (2 + 1) c [] = _
  rw [recvLoop_succ]
  simp only [shareableFrom_nil]
  rw [if_neg hg1]
  simp only [hs1]
  show recvLoop dec none (1 + 1) c (readBytes c.data c.aStart 4) = _
  rw [recvLoop_succ]
  simp only [hs1]
  rw [if_neg hg1]
  show recvLoop dec none (0 + 1) c (readBytes c.data c.aStart 4) = _
  rw [recvLoop_succ]
  simp only [hs1]
  rw [if_neg hg1]
  rfl

/-- A head frame whose payload the decoder rejects surfaces the
deserialization error without storing to the header. -/
theorem recv_fail_head {T : Type} {enc : T → List Nat} {dec : List Nat → Option T}
    {c : Chan} {v : T} {rest : List T}
    (hInv : Inv enc c (v :: rest)) (hpos : 0 < (enc v).length)
    (hd : dec (enc v) = none) :
    recv dec none 3 c = .err c "deserialization error" := by
  obtain ⟨hspan, hkM, hp1, hp2⟩ := head_frame_facts hInv
  have haa := hInv.haa
  have hal := hInv.hal
  have hdM := hInv.hlen
  have hane : ¬ c.aStart = c.aEnd := by omega
  have hs1 : shareableFrom dec (readBytes c.data c.aStart 4)
      = .expects (4 + (enc v).length) := by
    rw [hp1]
    exact shareableFrom_prefix dec hkM
  have hs2 : shareableFrom dec (readBytes c.data c.aStart (4 + (enc v).length))
      = .fail "deserialization error" := by
    rw [hp2, shareableFrom_frame enc dec v hpos, hd]
  have hg1 : ¬(c.aStart = c.aEnd ∨ c.len < wadd c.aStart 4) := by
    rw [wadd_eq (by omega)]
    push_neg
    exact ⟨hane, by omega⟩
  have hg2 : ¬(c.aStart = c.aEnd ∨ c.len < wadd c.aStart (4 + (enc v).length)) := by
    rw [wadd_eq (by omega)]
    push_neg
    exact ⟨hane, by omega⟩
  show recvLoop dec none (2 + 1) c [] = _
  rw [recvLoop_succ]
  simp only [shareableFrom_nil]
  rw [if_neg hg1]
  simp only [hs1]
  show recvLoop dec none (1 + 1) c (readBytes c.data c.aStart 4) = _
  rw [recvLoop_succ]
  simp only [hs1]
  rw [if_neg hg2]
  simp only [hs2]

/-- Receiving from a channel whose pending queue starts with `v` (and whose
payload the decoder accepts, producing `w`) returns `w` and preserves the
invariant on the remaining queue. -/
theorem recv_head {T : Type} {enc : T → List Nat} {dec : List Nat → Option T}
    {c : Chan} {v w : T} {rest : List T}
    (hInv : Inv enc c (v :: rest)) (hdec : dec (enc v) = some w)
    (hkpos : 0 < (enc v).length) :
    recv dec none 3 c = .ok (maybeSwitch (commitChan c (4 + (enc v).length))) (some w)
      ∧ Inv enc (maybeSwitch (commitChan c (4 + (enc v).length))) rest := by
  obtain ⟨p, q, hpq, hA, hB⟩ := hInv.hsplit
  have hdM := hInv.hlen
  have haa := hInv.haa
  have hal := hInv.hal
  have hba := hInv.hba
  have hdata := hInv.hdata
  cases p with
  | nil =>
    exfalso
    have hl := regionA_length hInv
    rw [hA, framesOf_nil] at hl
    simp at hl
    have he : c.aStart = c.aEnd := by omega
    obtain ⟨_, hb0, _⟩ := hInv.hempty he
    have hq : q = [] := framesOf_eq_nil (by rw [← hB, hb0]; rfl)
    rw [hq] at hpq
    simp at hpq
  | cons v0 p' =>
    rw [List.cons_append, List.cons.injEq] at hpq
    obtain ⟨hv0, hrest⟩ := hpq
    subst hv0
    rw [framesOf_cons] at hA
    have hl := regionA_length hInv
    have hlen2 := congrArg List.length hA
    rw [hl, List.length_append, toBytes_length] at hlen2
    have hspan : c.aStart + (4 + (enc v).length) ≤ c.aEnd := by omega
    have hkM : 4 + (enc v).length < M := by omega
    have hane : ¬ c.aStart = c.aEnd := by omega
    have hp1 : readBytes c.data c.aStart 4 = u32le (enc v).length := by
      rw [readBytes_eq (by omega) (by omega)]
      have h44 : (c.data.drop c.aStart).take 4
          = ((c.data.drop c.aStart).take (c.aEnd - c.aStart)).take 4 := by
        rw [List.take_take, Nat.min_eq_left (by omega)]
      rw [h44, hA, toBytes, List.append_assoc, List.take_append_eq_append_take,
        List.take_of_length_le (le_of_eq (u32le_length _)), u32le_length,
        Nat.sub_self, List.take_zero, List.append_nil]
    have hp2 : readBytes c.data c.aStart (4 + (enc v).length) = toBytes enc v := by
      rw [readBytes_eq (by omega) (by omega)]
      have h44 : (c.data.drop c.aStart).take (4 + (enc v).length)
          = ((c.data.drop c.aStart).take (c.aEnd - c.aStart)).take (4 + (enc v).length) := by
        rw [List.take_take, Nat.min_eq_left (by omega)]
      rw [h44, hA, List.take_append_eq_append_take,
        List.take_of_length_le (le_of_eq (toBytes_length enc v)), toBytes_length,
        Nat.sub_self, List.take_zero, List.append_nil]
    have hs1 : shareableFrom dec (readBytes c.data c.aStart 4)
        = .expects (4 + (enc v).length) := by
      rw [hp1]
      exact shareableFrom_prefix dec hkM
    have hs2 : shareableFrom dec (readBytes c.data c.aStart (4 + (enc v).length))
        = .decoded w := by
      rw [hp2, shareableFrom_frame enc dec v hkpos, hdec]
    have hg1 : ¬(c.aStart = c.aEnd ∨ c.len < wadd c.aStart 4) := by
      rw [wadd_eq (by omega)]
      push_neg
      exact ⟨hane, by omega⟩
    have hg2 : ¬(c.aStart = c.aEnd ∨ c.len < wadd c.aStart (4 + (enc v).length)) := by
      rw [wadd_eq (by omega)]
      push_neg
      exact ⟨hane, by omega⟩
    have hwadd : wadd c.aStart (4 + (enc v).length) = c.aStart + (4 + (enc v).length) :=
      wadd_eq (by omega)
    constructor
    · show recvLoop dec none (2 + 1) c [] = _
      rw [recvLoop_succ]
      simp only [shareableFrom_nil]
      rw [if_neg hg1]
      simp only [hs1]
      show recvLoop dec none (1 + 1) c (readBytes c.data c.aStart 4) = _
      rw [recvLoop_succ]
      simp only [hs1]
      rw [if_neg hg2]
      simp only [hs2]
      show recvLoop dec none (0 + 1) (maybeSwitch (commitChan c (4 + (enc v).length)))
        (readBytes c.data c.aStart (4 + (enc v).length)) = _
      rw [recvLoop_succ]
      simp only [hs2]
    · by_cases hdrain : c.aStart + (4 + (enc v).length) = c.aEnd
      · -- region A fully drained by this read
        have hp'nil : p' = [] :=
          @framesOf_eq_nil T enc p' (List.eq_nil_of_length_eq_zero (by omega))
        rw [hp'nil] at hrest
        simp at hrest
        cases hbu : c.bUse with
        | true =>
          have hcc : commitChan c (4 + (enc v).length)
              = { c with aStart := 0, aEnd := c.bEnd, bEnd := 0, bUse := false } := by
            unfold commitChan advance
            rw [hwadd]
            simp [hdrain, hbu]
          rw [hcc]
          have hms : maybeSwitch { c with aStart := 0, aEnd := c.bEnd, bEnd := 0, bUse := false }
              = { c with aStart := 0, aEnd := c.bEnd, bEnd := 0, bUse := false } := by
            unfold maybeSwitch
            rw [if_neg]
            simp [wsub]
          rw [hms]
          refine Inv.of_fields enc _ _ _ _ _ _ _ hdata hdM (Nat.le_refl 0) (Nat.zero_le _)
            (by omega) (fun _ => rfl) (fun _ => ⟨rfl, rfl, rfl⟩) ?_
          refine ⟨q, [], by rw [hrest]; simp, ?_, by simp [framesOf]⟩
          rw [List.drop_zero, Nat.sub_zero]
          exact hB
        | false =>
          have hb0 : c.bEnd = 0 := hInv.hb0 hbu
          have hq : q = [] := framesOf_eq_nil (by rw [← hB, hb0]; rfl)
          rw [hq] at hrest
          have hcc : commitChan c (4 + (enc v).length)
              = { c with aStart := 0, aEnd := 0 } := by
            unfold commitChan advance
            rw [hwadd]
            simp [hdrain, hbu]
          rw [hcc]
          have hms : maybeSwitch { c with aStart := 0, aEnd := 0 }
              = { c with aStart := 0, aEnd := 0 } := by
            unfold maybeSwitch
            rw [if_neg]
            simp [wsub, hb0]
          rw [hms]
          refine Inv.of_fields enc _ _ _ _ _ _ _ hdata hdM (by omega) (Nat.le_refl 0)
            (Nat.zero_le _) (fun _ => hb0) (fun _ => ⟨rfl, hb0, hbu⟩) ?_
          exact ⟨[], [], by simp [hrest], rfl, by rw [hb0]; rfl⟩
      · -- region A not yet drained: only the read cursor advances
        have hcc : commitChan c (4 + (enc v).length)
            = { c with aStart := c.aStart + (4 + (enc v).length) } := by
          unfold commitChan advance
          rw [hwadd]
          simp [hdrain]
        rw [hcc]
        apply maybeSwitch_inv
        refine Inv.of_fields enc _ _ _ _ _ _ _ hdata hdM (by omega) (by omega) hal
          hInv.hb0 (fun he => absurd he hdrain) ?_
        refine ⟨p', q, hrest, ?_, hB⟩
        have hdd : c.data.drop (c.aStart + (4 + (enc v).length))
            = (c.data.drop c.aStart).drop (4 + (enc v).length) := by
          rw [List.drop_drop]
        have hsub : c.aEnd - (c.aStart + (4 + (enc v).length))
            = (c.aEnd - c.aStart) - (4 + (enc v).length) := by omega
        rw [hdd, hsub, ← List.drop_take, hA,
          show (4 + (enc v).length) = (toBytes enc v).length from (toBytes_length enc v).symm,
          List.drop_left]

/-- Witness for C8: a decoder that rejects the payload makes `recv` surface
"deserialization error" while leaving the concrete channel state untouched. -/
theorem recv_fail_no_mutation_witness :
    (⟨16, u32le 1 ++ [9] ++ List.replicate 11 0, 0, 5, 0, false⟩ : Chan)
        = ⟨16, u32le 1 ++ [9] ++ List.replicate 11 0, 0, 5, 0, false⟩ ∧
    ∃ b, shareableFrom decNone b = .fail "deserialization error" :=
  recv_fail_no_mutation decNone none 3
    ⟨16, u32le 1 ++ [9] ++ List.replicate 11 0, 0, 5, 0, false⟩
    ⟨16, u32le 1 ++ [9] ++ List.replicate 11 0, 0, 5, 0, false⟩
    [] "deserialization error" (by decide)

/-- FIFO induction: executing any trace from an invariant state delivers the
pending values followed by the sent values, in order, the undelivered suffix
remaining pending in the ring. -/
theorem fifo_aux {T : Type} (enc : T → List Nat) (dec : List Nat → Option T) :
    ∀ (ops : List (Op T)) (c : Chan) (pending : List T),
    Inv enc c pending → (∀ v ∈ pending, Good enc dec v) →
    (∀ v ∈ sentVals ops, Good enc dec v) → AllFit enc dec c ops →
    ∃ cf out rest, exec enc dec c ops = some (cf, out) ∧
      pending ++ sentVals ops = out ++ rest ∧ Inv enc cf rest ∧
      ∀ v ∈ rest, Good enc dec v := by
  intro ops
  induction ops with
  | nil =>
    intro c pending hInv hGp _ _
    exact ⟨c, [], pending, rfl, by simp [sentVals], hInv, hGp⟩
  | cons op ops ih =>
    intro c pending hInv hGp hGs hfit
    cases op with
    | send v =>
      cases hfit with
      | fsend _ _ _ c' hsend hfit' =>
        have hInv' := send_inv hInv hsend
        have hGv : Good enc dec v := hGs v (by simp [sentVals])
        have hGs' : ∀ w ∈ sentVals ops, Good enc dec w := by
          intro w hw
          exact hGs w (by simp [sentVals]; exact Or.inr hw)
        have hGp' : ∀ w ∈ pending ++ [v], Good enc dec w := by
          intro w hw
          rcases List.mem_append.mp hw with h | h
          · exact hGp w h
          · rw [List.mem_singleton] at h
            exact h ▸ hGv
        obtain ⟨cf, out, rest, hexec, hsplit, hInvf, hGr⟩ :=
          ih c' (pending ++ [v]) hInv' hGp' hGs' hfit'
        refine ⟨cf, out, rest, ?_, ?_, hInvf, hGr⟩
        · simp [exec, hsend, hexec]
        · show pending ++ sentVals (Op.send v :: ops) = out ++ rest
          have hsv : sentVals (Op.send v :: ops) = v :: sentVals ops := rfl
          rw [hsv, ← hsplit, List.append_cons]
    | recv =>
      cases hfit with
      | frecv _ _ hf =>
        cases pending with
        | nil =>
          have hre := recv_empty dec hInv
          have hfit' := hf c none hre
          obtain ⟨cf, out, rest, hexec, hsplit, hInvf, hGr⟩ :=
            ih c [] hInv hGp hGs hfit'
          refine ⟨cf, out, rest, ?_, ?_, hInvf, hGr⟩
          · simp [exec, hre, hexec]
          · exact hsplit
        | cons v rest0 =>
          have hGv : Good enc dec v := hGp v (by simp)
          obtain ⟨hr, hInv'⟩ := recv_head hInv hGv.1 hGv.2
          have hfit' := hf _ (some v) hr
          have hGp' : ∀ w ∈ rest0, Good enc dec w :=
            fun w hw => hGp w (List.mem_cons_of_mem _ hw)
          obtain ⟨cf, out, rest, hexec, hsplit, hInvf, hGr⟩ :=
            ih _ rest0 hInv' hGp' hGs hfit'
          refine ⟨cf, v :: out, rest, ?_, ?_, hInvf, hGr⟩
          · simp [exec, hr, hexec]
          · show (v :: rest0) ++ sentVals (Op.recv :: ops) = (v :: out) ++ rest
            have hsv : sentVals (T := T) (Op.recv :: ops) = sentVals ops := rfl
            rw [hsv, List.cons_append, List.cons_append, hsplit]

/-- C1 counterexample: the claim quantifies over *every* sequence of values
whose sends fit, but for a value with a zero-size encoded payload (e.g. `()`
under bincode) the 4-byte frame fits a fresh 8-byte channel and the send
commits, yet `recv` never returns it: the loop keeps requesting the same
4 bytes (shown here at fuel 3 and fuel 50; `recv_spin_zero` proves it for
every invariant state with such a head frame), so no successful `recv`
sequence ever delivers the sent value — delivery is lost, refuting the
unrestricted FIFO claim. -/
theorem fifo_delivery_counterexample :
    unused (initChan 8) = 8 ∧
    (toBytes encUnit ()).length = 4 ∧
    send encUnit (initChan 8) () = .ok ⟨8, List.replicate 8 0, 0, 4, 0, false⟩ ∧
    recv decUnit none 3 ⟨8, List.replicate 8 0, 0, 4, 0, false⟩ = .spin ∧
    recv decUnit none 50 ⟨8, List.replicate 8 0, 0, 4, 0, false⟩ = .spin := by
  refine ⟨by decide, rfl, rfl, by decide, by decide⟩

/-- C1 (amended): restricted to values the codec round-trips with a
*nonempty* encoded payload (`Good` — the restriction the counterexample
forces: a zero-size payload fits and sends, but `recv` then loops forever and
never delivers it): for every trace of operations in which each
`Sender::send` succeeds because its frame fits the free space at that moment
(`AllFit`), the sequential execution from a fresh channel completes, and the
values returned by the successful `Receiver::recv` calls are exactly the sent
values `v1..vn`, in order, with the undelivered suffix still pending in the
ring — no loss, duplication, or reordering, across any number of region
switches. -/
theorem fifo_delivery {T : Type} (enc : T → List Nat) (dec : List Nat → Option T)
    (len : Nat) (ops : List (Op T)) (hlen : len < M)
    (hG : ∀ v ∈ sentVals ops, Good enc dec v)
    (hfit : AllFit enc dec (initChan len) ops) :
    ∃ cf out rest, exec enc dec (initChan len) ops = some (cf, out) ∧
      out ++ rest = sentVals ops ∧ Inv enc cf rest := by
  obtain ⟨cf, out, rest, h1, h2, h3, _⟩ := fifo_aux enc dec ops (initChan len) []
    (initChan_inv enc hlen) (by simp) hG hfit
  exact ⟨cf, out, rest, h1, by simpa using h2.symm, h3⟩

/-- Witness for C1: the trace send 1, send 2, recv, recv on a 10-byte channel
(the crate's own `test` scenario). -/
theorem fifo_delivery_witness :
    ∃ cf out rest,
      exec encByte decByte (initChan 10) [Op.send 1, Op.send 2, Op.recv, Op.recv]
        = some (cf, out) ∧
      out ++ rest = sentVals [Op.send 1, Op.send 2, Op.recv, Op.recv] ∧
      Inv encByte cf rest :=
  fifo_delivery encByte decByte 10 [Op.send 1, Op.send 2, Op.recv, Op.recv]
    (by decide)
    (by
      intro v hv
      simp [sentVals] at hv
      rcases hv with rfl | rfl
      · exact ⟨rfl, by decide⟩
      · exact ⟨rfl, by decide⟩)
    (AllFit.fsend _ _ _ _ rfl (AllFit.fsend _ _ _ _ rfl
      (AllFit.frecv _ _ (fun c' _ _ => AllFit.frecv c' _
        (fun c'' _ _ => AllFit.nil c'')))))

/-- Every `Ok` outcome of `recv` on an invariant state: either the ring was
empty, or the head frame was consumed (decoded to some value) and the
committed state again satisfies the invariant. -/
theorem recv_ok_cases {T : Type} {enc : T → List Nat} {dec : List Nat → Option T}
    {c c' : Chan} {r : Option T} {pending : List T}
    (hInv : Inv enc c pending) (h : recv dec none 3 c = .ok c' r) :
    (pending = [] ∧ c' = c ∧ r = none) ∨
    ∃ v rest w, pending = v :: rest ∧ r = some w ∧
      c' = maybeSwitch (commitChan c (4 + (enc v).length)) ∧ Inv enc c' rest := by
  cases pending with
  | nil =>
    rw [recv_empty dec hInv] at h
    injection h with h1 h2
    exact Or.inl ⟨rfl, h1.symm, h2.symm⟩
  | cons v rest =>
    by_cases hz : (enc v).length = 0
    · rw [recv_spin_zero hInv hz] at h
      exact RecvResult.noConfusion h
    · have hpos : 0 < (enc v).length := Nat.pos_of_ne_zero hz
      cases hd : dec (enc v) with
      | none =>
        rw [recv_fail_head hInv hpos hd] at h
        exact RecvResult.noConfusion h
      | some w =>
        obtain ⟨hr, hInv'⟩ := recv_head hInv hd hpos
        rw [hr] at h
        injection h with h1 h2
        exact Or.inr ⟨v, rest, w, rfl, h2.symm, h1.symm, h1 ▸ hInv'⟩

/-- Every reachable state satisfies the ring invariant for some pending
queue. -/
theorem reachable_inv {T : Type} {enc : T → List Nat} {dec : List Nat → Option T}
    {len : Nat} {c : Chan} (hlen : len < M) (h : Reachable enc dec len c) :
    ∃ pending, Inv enc c pending := by
  induction h with
  | init => exact ⟨[], initChan_inv enc hlen⟩
  | step_send hR hsend ih =>
    obtain ⟨pending, hInv⟩ := ih
    exact ⟨pending ++ [_], send_inv hInv hsend⟩
  | step_recv hR hrecv ih =>
    obtain ⟨pending, hInv⟩ := ih
    rcases recv_ok_cases hInv hrecv with ⟨_, h1, _⟩ | ⟨v, rest, w, _, _, _, hInv'⟩
    · exact ⟨pending, h1 ▸ hInv⟩
    · exact ⟨rest, hInv'⟩

/-- C2: starting from the all-zero header, after every committed send and
every committed receive (the region-switch evaluation included) the header of
a reachable state satisfies `A_START ≤ A_END ≤ len` and (whenever
`B_USE = 1`) `B_END ≤ A_START`, so the `u32` subtractions
`A_START − B_END` and `len − A_END` computed in `unused` and `maybe_switch`
never underflow: the wrapping subtraction equals the exact difference. -/
theorem header_invariants {T : Type} (enc : T → List Nat) (dec : List Nat → Option T)
    (len : Nat) (c : Chan) (hlen : len < M) (hR : Reachable enc dec len c) :
    c.aStart ≤ c.aEnd ∧ c.aEnd ≤ c.len ∧
    (c.bUse = true → c.bEnd ≤ c.aStart) ∧
    wsub c.aStart c.bEnd = c.aStart - c.bEnd ∧
    wsub c.len c.aEnd = c.len - c.aEnd := by
  obtain ⟨pending, hInv⟩ := reachable_inv hlen hR
  have h1 := hInv.haa
  have h2 := hInv.hal
  have h3 := hInv.hba
  have hM := hInv.hlen
  exact ⟨h1, h2, fun _ => h3, wsub_eq h3 (by omega), wsub_eq h2 hM⟩

/-- Witness for C2 at the freshly constructed 8-byte channel. -/
theorem header_invariants_witness :
    (initChan 8).aStart ≤ (initChan 8).aEnd ∧ (initChan 8).aEnd ≤ (initChan 8).len ∧
    ((initChan 8).bUse = true → (initChan 8).bEnd ≤ (initChan 8).aStart) ∧
    wsub (initChan 8).aStart (initChan 8).bEnd = (initChan 8).aStart - (initChan 8).bEnd ∧
    wsub (initChan 8).len (initChan 8).aEnd = (initChan 8).len - (initChan 8).aEnd :=
  header_invariants encByte decByte 8 (initChan 8) (by decide) Reachable.init

end SharedChannel
